import Mathlib

set_option maxRecDepth 100000
set_option maxHeartbeats 1000000

/-!
Verification development for the limix repository core: the chi-square
mixture estimator in src/limix/stats/chi2mixture.py and the Gower
rescaling utility in src/limix/qc/kinship.py.

Statistics are modelled as rationals.  The two transcendental numerical
primitives used by the code, the chi-square survival function
scipy.stats.chi2.sf and the base-10 logarithm, are abstracted as
function parameters sfc and lf; every theorem quantifies over them (or
holds for concrete instances supplied in a witness).  Floating-point
special values that matter to the control flow (minus infinity from
log10 of zero, NaN from the mean of an empty slice, plus infinity as the
initial optimum) are modelled explicitly by the Fval type, following the
IEEE-754 propagation rules actually used by numpy on the code paths
under consideration.
-/

/-- Extended value modelling an IEEE-754 double for the purposes of the
log-quantile error computation: a finite rational, plus infinity, minus
infinity, or NaN. -/
inductive Fval where
| fin (q : ℚ)
| pinf
| ninf
| nan
deriving DecidableEq, Inhabited

/-- Subtraction of extended values, following IEEE-754 semantics. -/
def Fval.sub : Fval → Fval → Fval
| .nan, _ => .nan
| .fin a, .fin b => .fin (a - b)
| .fin _, .pinf => .ninf
| .fin _, .ninf => .pinf
| .fin _, .nan => .nan
| .pinf, .fin _ => .pinf
| .pinf, .pinf => .nan
| .pinf, .ninf => .pinf
| .pinf, .nan => .nan
| .ninf, .fin _ => .ninf
| .ninf, .pinf => .ninf
| .ninf, .ninf => .nan
| .ninf, .nan => .nan

/-- Squaring of an extended value (both infinities square to plus
infinity, NaN propagates). -/
def Fval.sq : Fval → Fval
| .nan => .nan
| .fin a => .fin (a * a)
| .pinf => .pinf
| .ninf => .pinf

/-- Addition of extended values, following IEEE-754 semantics. -/
def Fval.add : Fval → Fval → Fval
| .nan, _ => .nan
| .fin a, .fin b => .fin (a + b)
| .fin _, .pinf => .pinf
| .fin _, .ninf => .ninf
| .fin _, .nan => .nan
| .pinf, .fin _ => .pinf
| .pinf, .pinf => .pinf
| .pinf, .ninf => .nan
| .pinf, .nan => .nan
| .ninf, .fin _ => .ninf
| .ninf, .pinf => .nan
| .ninf, .ninf => .ninf
| .ninf, .nan => .nan

/-- Division of an extended value by a natural count, used for the mean.
Division by the count zero only arises for the mean of an empty slice,
where the numerator is the empty sum zero and numpy produces NaN. -/
def Fval.divN : Fval → ℕ → Fval
| _, 0 => .nan
| .nan, _ => .nan
| .fin a, n + 1 => .fin (a / (n + 1 : ℕ))
| .pinf, _ + 1 => .pinf
| .ninf, _ + 1 => .ninf

/-- Sum of a list of extended values, as numpy sums an array (left fold
from zero). -/
def sumFv (l : List Fval) : Fval := l.foldl Fval.add (Fval.fin 0)

/-- Mean of a list of extended values; the mean of an empty list is NaN,
as numpy.mean of an empty slice. -/
def meanFv (l : List Fval) : Fval := (sumFv l).divN l.length

/-- Strict less-than on extended values as a boolean, following IEEE-754
comparison semantics: any comparison involving NaN is false. -/
def Fval.ltB : Fval → Fval → Bool
| .nan, _ => false
| _, .nan => false
| .fin a, .fin b => decide (a < b)
| .fin _, .pinf => true
| .fin _, .ninf => false
| .pinf, _ => false
| .ninf, .fin _ => true
| .ninf, .pinf => true
| .ninf, .ninf => false

/-- Base-10 logarithm lifted to extended values: positive arguments give
the abstract finite logarithm lf, zero gives minus infinity, negative
arguments give NaN.  This is numpy.log10 behaviour. -/
def log10E (lf : ℚ → ℚ) (x : ℚ) : Fval :=
  if 0 < x then .fin (lf x) else if x = 0 then .ninf else .nan

/-- Elementwise subtraction of two one-dimensional arrays under numpy
broadcasting: equal lengths subtract elementwise, a length-one array
broadcasts against the other, and any other shape combination raises a
ValueError (modelled as none). -/
def broadcastSub (xs ys : List Fval) : Option (List Fval) :=
  if xs.length = ys.length then some (List.zipWith Fval.sub xs ys)
  else if xs.length = 1 then some (ys.map (fun y => Fval.sub xs.headI y))
  else if ys.length = 1 then some (xs.map (fun x => Fval.sub x ys.headI))
  else none

/-- numpy.linspace a b n with endpoint=True: n equally spaced points
from a to b inclusive; a single point is the start, zero points is the
empty array. -/
def linspace (a b : ℚ) (n : ℕ) : List ℚ :=
  if n = 0 then []
  else if n = 1 then [a]
  else (List.range n).map (fun i : ℕ => a + (b - a) * (i : ℚ) / ((n : ℚ) - 1))

/-- Insertion into an ascending-sorted list, the building block of the
model of numpy.sort. -/
def insertAsc (x : ℚ) : List ℚ → List ℚ
| [] => [x]
| y :: ys => if x ≤ y then x :: y :: ys else y :: insertAsc x ys

/-- Ascending sort of a rational array, modelling numpy.sort. -/
def sortAsc (l : List ℚ) : List ℚ := l.foldr insertAsc []

/-- Configuration fields stored by Chi2mixture.__init__ in
src/limix/stats/chi2mixture.py. -/
structure Config where
  scale_min : ℚ
  scale_max : ℚ
  dof_min : ℚ
  dof_max : ℚ
  n_intervals : ℕ
  qmax : ℚ
  tol : ℚ
deriving DecidableEq

/-- The Chi2mixture object state: the stored configuration plus the
three attributes the methods may set (self.mixture, self.scale,
self.dof).  A field is none when the corresponding Python attribute has
not been assigned. -/
structure Chi2mixture where
  cfg : Config
  mixture : Option ℚ
  scale : Option ℚ
  dof : Option ℚ
deriving DecidableEq

/-- Chi2mixture.__init__: stores the seven arguments and nothing else;
the fitted attributes do not exist yet.  The source performs no
validation of any kind. -/
def Chi2mixture.init (scale_min scale_max dof_min dof_max : ℚ)
    (n_intervals : ℕ) (qmax tol : ℚ) : Chi2mixture :=
  ⟨⟨scale_min, scale_max, dof_min, dof_max, n_intervals, qmax, tol⟩,
   none, none, none⟩

/-- Step 1 of estimate_chi2mixture: self.mixture = 1 - (lrt <= tol).mean(). -/
def mixtureOf (tol : ℚ) (lrt : List ℚ) : ℚ :=
  1 - (lrt.countP (fun x => decide (x ≤ tol)) : ℚ) / (lrt.length : ℚ)

/-- n_false = sp.sum(lrt > tol). -/
def n_falseOf (tol : ℚ) (lrt : List ℚ) : ℕ :=
  lrt.countP (fun x => decide (tol < x))

/-- n_fitting = int(sp.ceil(qmax * n_false)). -/
def n_fittingOf (qmax : ℚ) (n_false : ℕ) : ℕ :=
  (Int.ceil (qmax * (n_false : ℚ))).toNat

/-- lrt_sorted = -sp.sort(-lrt)[:n_fitting]: negate, sort ascending,
negate back, keep the first n_fitting entries. -/
def lrt_sortedOf (lrt : List ℚ) (n_fitting : ℕ) : List ℚ :=
  ((sortAsc (lrt.map (fun x => -x))).map (fun x => -x)).take n_fitting

/-- q = sp.linspace(0, 1, n_false)[1:n_fitting + 1]. -/
def qOf (n_false n_fitting : ℕ) : List ℚ :=
  ((linspace 0 1 n_false).drop 1).take n_fitting

/-- Grid-search loop state: the running minimum MSE_opt together with
the current self.scale and self.dof attributes. -/
structure GState where
  MSE_opt : Fval
  scale : Option ℚ
  dof : Option ℚ
deriving DecidableEq

/-- One grid cell of the search: p = st.chi2.sf(lrt_sorted / scale, dof),
log_p = sp.log10(p), MSE = sp.mean((log_q - log_p)**2).  The result is
none when the broadcast of log_q against log_p raises a ValueError. -/
def cellError (sfc : ℚ → ℚ → ℚ) (lf : ℚ → ℚ) (log_q : List Fval)
    (lrt_sorted : List ℚ) (scale dof : ℚ) : Option Fval :=
  let p := lrt_sorted.map (fun t => sfc (t / scale) dof)
  let log_p := p.map (log10E lf)
  (broadcastSub log_q log_p).map (fun dv => meanFv (dv.map Fval.sq))

/-- The running-minimum update: if MSE[i, j] < MSE_opt then record the
cell error and the cell coordinates as self.scale and self.dof. -/
def gridStep (g : GState) (scale dof : ℚ) (e : Fval) : GState :=
  if Fval.ltB e g.MSE_opt then ⟨e, some scale, some dof⟩ else g

/-- The scale-outer, dof-inner iteration order of the double loop, as a
flat list of (scale, dof) cells. -/
def gridCells (cfg : Config) : List (ℚ × ℚ) :=
  (linspace cfg.scale_min cfg.scale_max cfg.n_intervals).flatMap
    (fun s => (linspace cfg.dof_min cfg.dof_max cfg.n_intervals).map
      (fun d => (s, d)))

/-- The double loop of estimate_chi2mixture over the grid cells.  A
ValueError raised inside a cell aborts the loop carrying the state
reached so far (modelled as the error branch). -/
def runGrid (sfc : ℚ → ℚ → ℚ) (lf : ℚ → ℚ) (log_q : List Fval)
    (lrt_sorted : List ℚ) : List (ℚ × ℚ) → GState → Except GState GState
| [], g => .ok g
| c :: rest, g =>
    match cellError sfc lf log_q lrt_sorted c.1 c.2 with
    | none => .error g
    | some e => runGrid sfc lf log_q lrt_sorted rest (gridStep g c.1 c.2 e)

/-- Chi2mixture.estimate_chi2mixture: sets self.mixture from the whole
sample, builds the tail and the empirical log-quantiles, and runs the
grid search, updating self.scale and self.dof at every new minimum.  The
error branch models a numpy ValueError escaping the method, carrying the
object state at that moment (the mixture assignment has already
happened). -/
def Chi2mixture.estimate_chi2mixture (sfc : ℚ → ℚ → ℚ) (lf : ℚ → ℚ)
    (self : Chi2mixture) (lrt : List ℚ) : Except Chi2mixture Chi2mixture :=
  let mixture := mixtureOf self.cfg.tol lrt
  let n_false := n_falseOf self.cfg.tol lrt
  let n_fitting := n_fittingOf self.cfg.qmax n_false
  let lrt_sorted := lrt_sortedOf lrt n_fitting
  let q := qOf n_false n_fitting
  let log_q := q.map (log10E lf)
  let g0 : GState := ⟨Fval.pinf, self.scale, self.dof⟩
  match runGrid sfc lf log_q lrt_sorted (gridCells self.cfg) g0 with
  | .error g => .error ⟨self.cfg, some mixture, g.scale, g.dof⟩
  | .ok g => .ok ⟨self.cfg, some mixture, g.scale, g.dof⟩

/-- The object state after a call to estimate_chi2mixture, whether the
call returned normally or raised. -/
def outSelf : Except Chi2mixture Chi2mixture → Chi2mixture
| .error s => s
| .ok s => s

/-- sp.copy. -/
def numpyCopy (xs : List ℚ) : List ℚ := xs

/-- Masked assignment a[mask] = 0: each entry whose mask is true is
replaced by zero. -/
def maskedSetZero (xs : List ℚ) (mask : List Bool) : List ℚ :=
  List.zipWith (fun x m => if m then 0 else x) xs mask

/-- Chi2mixture.sf: copy the input, clamp entries below tol to zero in
the copy, and return mixture * chi2.sf(clamped / scale, dof)
elementwise.  The three fitted parameters and tol are passed explicitly
(in Python they are attributes read from self). -/
def Chi2mixture.sf (sfc : ℚ → ℚ → ℚ) (tol mixture scale dof : ℚ)
    (lrt : List ℚ) : List ℚ :=
  let c := numpyCopy lrt
  let c2 := maskedSetZero c (lrt.map (fun x => decide (x < tol)))
  c2.map (fun x => mixture * sfc (x / scale) dof)

/-- A store of arrays addressed by index, for stating the frame property
of Chi2mixture.sf: sp.copy allocates a fresh array and the masked
assignment mutates only the copy. -/
structure Store where
  arrays : List (List ℚ)
deriving DecidableEq

/-- Read the array at an index (reading a dangling index gives the empty
array; the theorems only read valid indices). -/
def Store.read (s : Store) (i : ℕ) : List ℚ := s.arrays.getD i []

/-- Overwrite the array at an index. -/
def Store.write (s : Store) (i : ℕ) (v : List ℚ) : Store :=
  ⟨s.arrays.set i v⟩

/-- Allocate a fresh array, returning the new store and its index. -/
def Store.alloc (s : Store) (v : List ℚ) : Store × ℕ :=
  (⟨s.arrays ++ [v]⟩, s.arrays.length)

/-- Chi2mixture.sf with the array store made explicit: the input array
lives at index lrt; sp.copy allocates a fresh array, the masked
assignment writes to the copy, and the p-values are computed from the
copy. -/
def Chi2mixture.sfStore (sfc : ℚ → ℚ → ℚ) (tol mixture scale dof : ℚ)
    (st : Store) (lrt : ℕ) : Store × List ℚ :=
  let v := st.read lrt
  let a := st.alloc (numpyCopy v)
  let st1 := a.1
  let ci := a.2
  let mask := v.map (fun x => decide (x < tol))
  let st2 := st1.write ci (maskedSetZero (st1.read ci) mask)
  let pv := (st2.read ci).map (fun x => mixture * sfc (x / scale) dof)
  (st2, pv)

/-- gower_norm from src/limix/qc/kinship.py, out=None branch:
c = (K.shape[0] - 1) / (K.trace() - K.mean(0).sum()); return c * K. -/
def gower_norm (n : ℕ) (K : Matrix (Fin n) (Fin n) ℚ) :
    Matrix (Fin n) (Fin n) ℚ :=
  let c : ℚ := ((n : ℚ) - 1) /
    (Matrix.trace K - ∑ j, (∑ i, K i j) / (n : ℚ))
  c • K

/-- gower_norm, out-supplied branch: copyto(out, K); out *= c.  The
value written into out. -/
def gower_norm_out (n : ℕ) (K : Matrix (Fin n) (Fin n) ℚ) :
    Matrix (Fin n) (Fin n) ℚ :=
  let c : ℚ := ((n : ℚ) - 1) /
    (Matrix.trace K - ∑ j, (∑ i, K i j) / (n : ℚ))
  Matrix.of (fun i j => K i j * c)

/-- Modelled from the spec: the closed-form Gower factor as the spec
writes it, K * (n - 1) / (trace(K) - sum of the column means of K). -/
def gowerSpecFactor (n : ℕ) (K : Matrix (Fin n) (Fin n) ℚ) : ℚ :=
  ((n : ℚ) - 1) / (Matrix.trace K - ∑ j, (∑ i, K i j) / (n : ℚ))

/-- Modelled from the spec: insertion into a descending-sorted list. -/
def specInsertDesc (x : ℚ) : List ℚ → List ℚ
| [] => [x]
| y :: ys => if y ≤ x then x :: y :: ys else y :: specInsertDesc x ys

/-- Modelled from the spec: a descending sort of the sample, used to
state that the tail consists of the top n_fitting values. -/
def specSortDesc (l : List ℚ) : List ℚ := l.foldr specInsertDesc []

/-- Modelled from the spec: the grid-cell error as claim C1 words it,
the mean over the fitting elements of the squared difference between the
empirical and theoretical log10 quantiles, as a plain rational. -/
def claimCellMSE (sfc : ℚ → ℚ → ℚ) (lf : ℚ → ℚ) (qs tail : List ℚ)
    (scale dof : ℚ) : ℚ :=
  (List.zipWith (fun qv t => (lf qv - lf (sfc (t / scale) dof)) ^ 2)
    qs tail).sum / (tail.length : ℚ)

/-- The cell error of claim C1 at a given grid cell, with the tail and
quantile positions derived from the sample and configuration. -/
def claimErrAt (sfc : ℚ → ℚ → ℚ) (lf : ℚ → ℚ) (cfg : Config)
    (lrt : List ℚ) (c : ℚ × ℚ) : ℚ :=
  claimCellMSE sfc lf
    (qOf (n_falseOf cfg.tol lrt) (n_fittingOf cfg.qmax (n_falseOf cfg.tol lrt)))
    (lrt_sortedOf lrt (n_fittingOf cfg.qmax (n_falseOf cfg.tol lrt)))
    c.1 c.2

/-- Modelled from the spec: the grid-cell error computed after clamping
each survival probability to a positive floor before taking the
logarithm, as claim C6 describes the policy. -/
def clampCellError (floor : ℚ) (sfc : ℚ → ℚ → ℚ) (lf : ℚ → ℚ)
    (lqs tail : List ℚ) (scale dof : ℚ) : ℚ :=
  (List.zipWith (fun lq t => (lq - lf (max (sfc (t / scale) dof) floor)) ^ 2)
    lqs tail).sum / (tail.length : ℚ)

/-- First minimum of a list of grid cells under an error function,
keeping the earliest cell on ties; none for the empty list. -/
def selectMin (errf : ℚ × ℚ → ℚ) : List (ℚ × ℚ) → Option ((ℚ × ℚ) × ℚ)
| [] => none
| c :: rest =>
    match selectMin errf rest with
    | none => some (c, errf c)
    | some p => if p.2 < errf c then some p else some (c, errf c)

/-- Resolution of a completed grid search from a selected first minimum:
no cell (empty grid) leaves the state unchanged, and a selected cell
replaces the state exactly when its error beats the incoming optimum. -/
def applySel (g : GState) : Option ((ℚ × ℚ) × ℚ) → GState
| none => g
| some p =>
    if Fval.ltB (Fval.fin p.2) g.MSE_opt then ⟨Fval.fin p.2, some p.1.1, some p.1.2⟩
    else g

/-- Claim C5 counterexample: the claim says construction must fail with
an InvalidConfiguration error when scale_min >= scale_max, but
Chi2mixture.__init__ performs no validation at all: with scale_min = 5
and scale_max = 1/10 it returns a normal object storing those fields. -/
theorem C5_counterexample :
    Chi2mixture.init 5 (1/10) (1/10) 5 100 (1/10) 0 =
      ⟨⟨5, 1/10, 1/10, 5, 100, 1/10, 0⟩, none, none, none⟩ ∧
    (Chi2mixture.init 5 (1/10) (1/10) 5 100 (1/10) 0).cfg.scale_max ≤
      (Chi2mixture.init 5 (1/10) (1/10) 5 100 (1/10) 0).cfg.scale_min := by
  exact ⟨rfl, by norm_num [Chi2mixture.init]⟩

/-- Claim C5 (amended): construction never fails.  For every
configuration, valid or not, Chi2mixture.__init__ returns an object that
stores the seven fields unchanged and has no fitted attributes; there is
no validation and no other side effect. -/
theorem C5_amended (a b c d : ℚ) (n : ℕ) (q t : ℚ) :
    Chi2mixture.init a b c d n q t =
      ⟨⟨a, b, c, d, n, q, t⟩, none, none, none⟩ := rfl

/-- Claim C9: gower_norm returns exactly K * (n - 1) / (trace(K) - sum
of the column means of K), entrywise, and the out-supplied branch writes
the very same matrix; the function is a single closed-form transform. -/
theorem C9_gower (n : ℕ) (K : Matrix (Fin n) (Fin n) ℚ) :
    gower_norm n K = Matrix.of (fun i j => K i j * gowerSpecFactor n K) ∧
    gower_norm_out n K = gower_norm n K := by
  constructor
  · ext i j
    simp [gower_norm, gowerSpecFactor, Matrix.smul_apply, smul_eq_mul, mul_comm]
  · ext i j
    simp [gower_norm, gower_norm_out, Matrix.smul_apply, smul_eq_mul, mul_comm]

/-- Claim C2: estimate sets self.mixture to exactly
1 - (count of x <= tol) / n, over the entire sample, whatever the grid
search does afterwards (both on normal return and on an exception
escaping the grid loop, and for every survival function and logarithm). -/
theorem C2_mixture (sfc : ℚ → ℚ → ℚ) (lf : ℚ → ℚ) (self : Chi2mixture)
    (lrt : List ℚ) (h : lrt ≠ []) :
    (outSelf (Chi2mixture.estimate_chi2mixture sfc lf self lrt)).mixture =
      some (1 - (lrt.countP (fun x => decide (x ≤ self.cfg.tol)) : ℚ) /
        (lrt.length : ℚ)) := by
  simp only [Chi2mixture.estimate_chi2mixture]
  split <;> simp [outSelf, mixtureOf]

/-- Witness for C2 at a concrete sample and configuration. -/
theorem C2_mixture_witness :
    (([0, 1] : List ℚ) ≠ []) ∧
    (outSelf (Chi2mixture.estimate_chi2mixture (fun _ _ => (1:ℚ)/2) id
        (Chi2mixture.init 1 2 1 2 2 (1/2) 0) [0, 1])).mixture =
      some (1 - (([0, 1] : List ℚ).countP
          (fun x => decide (x ≤ (Chi2mixture.init 1 2 1 2 2 (1/2) 0).cfg.tol)) : ℚ) /
        (([0, 1] : List ℚ).length : ℚ)) :=
  ⟨by decide, C2_mixture _ _ _ _ (by decide)⟩

/-- With an empty tail and empty quantile vector every grid cell has a
NaN error (numpy mean of an empty slice), so the running minimum never
updates and the loop finishes with its incoming state. -/
theorem runGrid_nil_inputs (sfc : ℚ → ℚ → ℚ) (lf : ℚ → ℚ)
    (cells : List (ℚ × ℚ)) (g : GState) :
    runGrid sfc lf [] [] cells g = .ok g := by
  induction cells generalizing g with
  | nil => rfl
  | cons c rest ih =>
    simp [runGrid, cellError, broadcastSub, meanFv, sumFv, Fval.divN,
      gridStep, Fval.ltB, ih]

/-- Claim C4 counterexample: on the all-zero sample the claim requires
an EstimationError, but estimate returns normally: mixture is set to 0
and scale and dof are never assigned (the grid loop sees only NaN
errors). -/
theorem C4_counterexample :
    Chi2mixture.estimate_chi2mixture (fun _ _ => (1:ℚ)/2) id
      (Chi2mixture.init (1/10) 5 (1/10) 5 2 (1/10) 0) [0] =
      .ok ⟨⟨1/10, 5, 1/10, 5, 2, 1/10, 0⟩, some 0, none, none⟩ := by
  have h1 : n_falseOf (0:ℚ) [0] = 0 := by
    simp [n_falseOf, List.countP_cons]
  have h2 : n_fittingOf ((1:ℚ)/10) 0 = 0 := by
    simp [n_fittingOf]
  have h3 : mixtureOf (0:ℚ) [0] = 0 := by
    simp [mixtureOf, List.countP_cons]
  simp only [Chi2mixture.estimate_chi2mixture, Chi2mixture.init, h1, h2, h3,
    lrt_sortedOf, qOf, List.take_zero, List.map_nil, runGrid_nil_inputs]

/-- Claim C4 (amended): when no statistic exceeds tol, estimate does not
raise and does not divide by zero: it sets mixture to exactly 0 and
leaves scale and dof untouched (unset on a freshly constructed object),
because every grid cell evaluates to a NaN error that never beats the
initial infinite optimum.  The code has no EstimationError. -/
theorem C4_amended (sfc : ℚ → ℚ → ℚ) (lf : ℚ → ℚ) (self : Chi2mixture)
    (lrt : List ℚ) (h1 : lrt ≠ []) (h2 : ∀ x ∈ lrt, x ≤ self.cfg.tol) :
    Chi2mixture.estimate_chi2mixture sfc lf self lrt =
      .ok ⟨self.cfg, some 0, self.scale, self.dof⟩ := by
  have hnf : n_falseOf self.cfg.tol lrt = 0 := by
    rw [n_falseOf, List.countP_eq_zero]
    intro x hx
    simpa [not_lt] using h2 x hx
  have hfit : n_fittingOf self.cfg.qmax (n_falseOf self.cfg.tol lrt) = 0 := by
    rw [hnf]
    simp [n_fittingOf]
  have hmix : mixtureOf self.cfg.tol lrt = 0 := by
    have hc : lrt.countP (fun x => decide (x ≤ self.cfg.tol)) = lrt.length :=
      List.countP_eq_length.mpr (fun x hx => by simpa using h2 x hx)
    have hlen : (lrt.length : ℚ) ≠ 0 := by
      have hne : lrt.length ≠ 0 := fun hl => h1 (List.length_eq_zero.mp hl)
      exact_mod_cast hne
    rw [mixtureOf, hc]
    field_simp
  simp only [Chi2mixture.estimate_chi2mixture, hfit, lrt_sortedOf, qOf,
    List.take_zero, List.map_nil, runGrid_nil_inputs, hmix]

/-- Witness for C4 (amended) at the all-zero sample of the spec's test
scenario. -/
theorem C4_witness :
    ((([0] : List ℚ) ≠ []) ∧
      (∀ x ∈ ([0] : List ℚ),
        x ≤ (Chi2mixture.init (1/10) 5 (1/10) 5 100 (1/10) 0).cfg.tol)) ∧
    Chi2mixture.estimate_chi2mixture (fun _ _ => (1:ℚ)/2) id
        (Chi2mixture.init (1/10) 5 (1/10) 5 100 (1/10) 0) [0] =
      .ok ⟨(Chi2mixture.init (1/10) 5 (1/10) 5 100 (1/10) 0).cfg, some 0,
        (Chi2mixture.init (1/10) 5 (1/10) 5 100 (1/10) 0).scale,
        (Chi2mixture.init (1/10) 5 (1/10) 5 100 (1/10) 0).dof⟩ :=
  ⟨⟨by decide, by simp [Chi2mixture.init]⟩,
   C4_amended _ _ _ _ (by decide) (by simp [Chi2mixture.init])⟩

/-- The copy-then-mask pipeline of Chi2mixture.sf collapses to a single
elementwise map clamping sub-tol entries to zero. -/
theorem sf_eq_map (sfc : ℚ → ℚ → ℚ) (tol mixture scale dof : ℚ)
    (lrt : List ℚ) :
    Chi2mixture.sf sfc tol mixture scale dof lrt =
      lrt.map (fun x => mixture * sfc ((if x < tol then 0 else x) / scale) dof) := by
  simp only [Chi2mixture.sf, numpyCopy, maskedSetZero]
  rw [List.zipWith_map_right, List.zipWith_same, List.map_map]
  congr 1
  funext x
  by_cases hx : x < tol <;> simp [Function.comp, hx]

/-- Claim C7: sf returns one p-value per input in order; each input x is
clamped to exactly 0 when x < tol and the output element is
mixture * chi2.sf(x_clamped / scale, dof); in particular any entry whose
clamped value is 0 receives exactly mixture (using that the survival
function at 0 is 1). -/
theorem C7_sf (sfc : ℚ → ℚ → ℚ) (tol mixture scale dof : ℚ)
    (lrt : List ℚ) (hsf : sfc 0 dof = 1) :
    (Chi2mixture.sf sfc tol mixture scale dof lrt).length = lrt.length ∧
    ∀ i, i < lrt.length →
      (Chi2mixture.sf sfc tol mixture scale dof lrt)[i]? =
        some (mixture *
          sfc ((if lrt.getD i 0 < tol then 0 else lrt.getD i 0) / scale) dof) ∧
      ((if lrt.getD i 0 < tol then 0 else lrt.getD i 0) = 0 →
        (Chi2mixture.sf sfc tol mixture scale dof lrt)[i]? = some mixture) := by
  rw [sf_eq_map]
  refine ⟨by simp, ?_⟩
  intro i hi
  have hgot : lrt[i]? = some (lrt.getD i 0) := by
    rw [List.getD_eq_getElem?_getD]
    cases h : lrt[i]? with
    | none =>
      rw [List.getElem?_eq_none_iff] at h
      omega
    | some v => rfl
  constructor
  · rw [List.getElem?_map, hgot]
    rfl
  · intro h0
    rw [List.getElem?_map, hgot]
    simp only [Option.map_some']
    rw [h0]
    simp [hsf]

/-- Witness for C7 at a concrete survival function and sample (one entry
below tol, one above). -/
theorem C7_witness :
    ((fun x d => if x = 0 then (1:ℚ) else 1/2) 0 1 = 1) ∧
    ((Chi2mixture.sf (fun x d => if x = 0 then (1:ℚ) else 1/2) 0 (1/5) 1 1
        [-1, 2]).length = ([-1, 2] : List ℚ).length ∧
      ∀ i, i < ([-1, 2] : List ℚ).length →
        (Chi2mixture.sf (fun x d => if x = 0 then (1:ℚ) else 1/2) 0 (1/5) 1 1
            [-1, 2])[i]? =
          some ((1:ℚ)/5 *
            (fun x d => if x = 0 then (1:ℚ) else 1/2)
              ((if ([-1, 2] : List ℚ).getD i 0 < 0 then 0
                else ([-1, 2] : List ℚ).getD i 0) / 1) 1) ∧
        ((if ([-1, 2] : List ℚ).getD i 0 < 0 then 0
            else ([-1, 2] : List ℚ).getD i 0) = 0 →
          (Chi2mixture.sf (fun x d => if x = 0 then (1:ℚ) else 1/2) 0 (1/5) 1 1
              [-1, 2])[i]? = some ((1:ℚ)/5))) :=
  ⟨by norm_num, C7_sf _ _ _ _ _ _ (by norm_num)⟩

/-- Claim C8: every value sf returns lies in [0, mixture], itself inside
[0, 1], provided mixture is in [0, 1] and the survival function maps
into [0, 1]; when mixture = 0 every returned p-value is 0. -/
theorem C8_sf_range (sfc : ℚ → ℚ → ℚ) (tol mixture scale dof : ℚ)
    (lrt : List ℚ) (hm0 : 0 ≤ mixture) (hm1 : mixture ≤ 1)
    (hsf0 : ∀ x d, 0 ≤ sfc x d) (hsf1 : ∀ x d, sfc x d ≤ 1) :
    (∀ v ∈ Chi2mixture.sf sfc tol mixture scale dof lrt,
      0 ≤ v ∧ v ≤ mixture ∧ v ≤ 1) ∧
    (mixture = 0 →
      ∀ v ∈ Chi2mixture.sf sfc tol mixture scale dof lrt, v = 0) := by
  constructor
  · intro v hv
    rw [sf_eq_map] at hv
    obtain ⟨x, hx, rfl⟩ := List.mem_map.mp hv
    exact ⟨mul_nonneg hm0 (hsf0 _ _),
      mul_le_of_le_one_right hm0 (hsf1 _ _),
      le_trans (mul_le_of_le_one_right hm0 (hsf1 _ _)) hm1⟩
  · intro h0 v hv
    rw [sf_eq_map] at hv
    obtain ⟨x, hx, rfl⟩ := List.mem_map.mp hv
    rw [h0, zero_mul]

/-- Witness for C8 at a concrete mixture and survival function. -/
theorem C8_witness :
    ((0:ℚ) ≤ 1/5 ∧ (1:ℚ)/5 ≤ 1 ∧ (∀ x d : ℚ, 0 ≤ (fun _ _ => (1:ℚ)/2) x d) ∧
      (∀ x d : ℚ, (fun _ _ => (1:ℚ)/2) x d ≤ 1)) ∧
    ((∀ v ∈ Chi2mixture.sf (fun _ _ => (1:ℚ)/2) 0 (1/5) 1 1 [0, 3],
        0 ≤ v ∧ v ≤ 1/5 ∧ v ≤ 1) ∧
      ((1:ℚ)/5 = 0 →
        ∀ v ∈ Chi2mixture.sf (fun _ _ => (1:ℚ)/2) 0 (1/5) 1 1 [0, 3], v = 0)) :=
  ⟨⟨by norm_num, by norm_num, fun _ _ => by norm_num, fun _ _ => by norm_num⟩,
   C8_sf_range _ _ _ _ _ _ (by norm_num) (by norm_num)
     (fun _ _ => by norm_num) (fun _ _ => by norm_num)⟩

/-- Claim C10: sf does not mutate the caller's array.  In the explicit
store model, sp.copy allocates a fresh array, the masked zeroing writes
only to the copy, and after the call the array at the caller's index
holds exactly the elements it held before; the returned p-values are
those of the pure computation on the original contents. -/
theorem C10_frame (sfc : ℚ → ℚ → ℚ) (tol mixture scale dof : ℚ)
    (st : Store) (idx : ℕ) (h : idx < st.arrays.length) :
    ((Chi2mixture.sfStore sfc tol mixture scale dof st idx).1).read idx =
      st.read idx ∧
    (Chi2mixture.sfStore sfc tol mixture scale dof st idx).2 =
      Chi2mixture.sf sfc tol mixture scale dof (st.read idx) := by
  have key1 : ∀ (l : List (List ℚ)) (v w : List ℚ) (i : ℕ), i < l.length →
      ((l ++ [v]).set l.length w).getD i [] = l.getD i [] := by
    intro l v w i hi
    rw [List.getD_eq_getElem?_getD, List.getD_eq_getElem?_getD,
      List.getElem?_set_ne (by omega), List.getElem?_append_left hi]
  have key2 : ∀ (l : List (List ℚ)) (v w : List ℚ),
      ((l ++ [v]).set l.length w).getD l.length [] = w := by
    intro l v w
    rw [List.getD_eq_getElem?_getD, List.getElem?_set_eq_of_lt _ (by simp)]
    rfl
  have key3 : ∀ (l : List (List ℚ)) (v : List ℚ),
      (l ++ [v]).getD l.length [] = v := by
    intro l v
    rw [List.getD_eq_getElem?_getD, List.getElem?_append_right (le_refl _)]
    simp
  constructor
  · simp only [Chi2mixture.sfStore, Store.alloc, Store.write, Store.read]
    exact key1 _ _ _ _ h
  · simp only [Chi2mixture.sfStore, Store.alloc, Store.write, Store.read,
      Chi2mixture.sf, numpyCopy]
    rw [key2, key3]

/-- Witness for C10 at a concrete one-array store. -/
theorem C10_witness :
    (0 < (Store.mk [[-1, 0, 2]]).arrays.length) ∧
    (((Chi2mixture.sfStore (fun _ _ => (1:ℚ)/2) 0 (1/5) 1 1
        (Store.mk [[-1, 0, 2]]) 0).1).read 0 =
      (Store.mk [[-1, 0, 2]]).read 0 ∧
    (Chi2mixture.sfStore (fun _ _ => (1:ℚ)/2) 0 (1/5) 1 1
        (Store.mk [[-1, 0, 2]]) 0).2 =
      Chi2mixture.sf (fun _ _ => (1:ℚ)/2) 0 (1/5) 1 1
        ((Store.mk [[-1, 0, 2]]).read 0)) :=
  ⟨by decide, C10_frame _ _ _ _ _ _ _ (by decide)⟩

/-- Negating every element turns ascending insertion into descending
insertion. -/
theorem map_neg_insertAsc (x : ℚ) (m : List ℚ) :
    (insertAsc x m).map (fun a => -a) =
      specInsertDesc (-x) (m.map (fun a => -a)) := by
  induction m with
  | nil => rfl
  | cons y ys ih =>
    simp only [insertAsc, List.map_cons, specInsertDesc]
    by_cases hxy : x ≤ y
    · rw [if_pos hxy, if_pos (by linarith)]
      simp
    · rw [if_neg hxy, if_neg (by simp; linarith)]
      simp [ih]

/-- The code's negate-sort-negate pipeline computes a descending sort:
the tail really is the top n_fitting values of the descending-sorted
sample. -/
theorem lrt_sortedOf_eq (lrt : List ℚ) (n : ℕ) :
    lrt_sortedOf lrt n = (specSortDesc lrt).take n := by
  have key : ∀ l : List ℚ,
      (sortAsc (l.map (fun a => -a))).map (fun a => -a) = specSortDesc l := by
    intro l
    induction l with
    | nil => rfl
    | cons a as ih =>
      have h1 : sortAsc ((a :: as).map (fun x => -x)) =
          insertAsc (-a) (sortAsc (as.map (fun x => -x))) := rfl
      rw [show (fun a : ℚ => -a) = (fun x : ℚ => -x) from rfl] at *
      rw [h1, map_neg_insertAsc, neg_neg, ih]
      rfl
  rw [lrt_sortedOf, key]

/-- Length of the linspace grid. -/
theorem linspace_length (a b : ℚ) (n : ℕ) : (linspace a b n).length = n := by
  unfold linspace
  split_ifs with h1 h2
  · simp [h1]
  · simp [h2]
  · rw [List.length_map, List.length_range]

/-- Indexing the linspace grid, in the generic case of at least two
points. -/
theorem linspace_getElem (a b : ℚ) (n i : ℕ) (h2 : 2 ≤ n) (hi : i < n) :
    (linspace a b n)[i]? =
      some (a + (b - a) * (i : ℚ) / ((n : ℚ) - 1)) := by
  unfold linspace
  rw [if_neg (by omega), if_neg (by omega), List.getElem?_map,
    List.getElem?_range hi, Option.map_some']

/-- Length of the kept quantile positions, in the regime where the slice
does not truncate. -/
theorem qOf_length (n_false n_fitting : ℕ) (h : n_fitting + 1 ≤ n_false) :
    (qOf n_false n_fitting).length = n_fitting := by
  rw [qOf, List.length_take, List.length_drop, linspace_length]
  omega

/-- The i-th kept quantile position is (i + 1) / (n_false - 1). -/
theorem qOf_getD (n_false n_fitting i : ℕ) (h : n_fitting + 1 ≤ n_false)
    (hi : i < n_fitting) :
    (qOf n_false n_fitting).getD i 0 =
      ((i : ℚ) + 1) / ((n_false : ℚ) - 1) := by
  have h2 : 2 ≤ n_false := by omega
  have hlt : 1 + i < n_false := by omega
  rw [qOf, List.getD_eq_getElem?_getD]
  rw [List.getElem?_take]
  rw [if_pos hi, List.getElem?_drop, linspace_getElem 0 1 n_false (1 + i) h2 hlt]
  push_cast
  simp
  ring

/-- Every kept quantile position is strictly positive. -/
theorem qOf_pos (n_false n_fitting : ℕ) (h : n_fitting + 1 ≤ n_false)
    (x : ℚ) (hx : x ∈ qOf n_false n_fitting) : 0 < x := by
  obtain ⟨⟨i, hi⟩, rfl⟩ := List.mem_iff_get.mp hx
  have hlen : i < n_fitting := by
    have := hi
    rw [qOf_length n_false n_fitting h] at this
    exact this
  have hget : (qOf n_false n_fitting).get ⟨i, hi⟩ =
      (qOf n_false n_fitting).getD i 0 := by
    rw [List.getD_eq_getElem?_getD, List.getElem?_eq_getElem hi]
    rfl
  rw [hget, qOf_getD n_false n_fitting i h hlen]
  have hden : (0:ℚ) < (n_false : ℚ) - 1 := by
    have : (2:ℚ) ≤ (n_false : ℚ) := by exact_mod_cast by omega
    linarith
  positivity

/-- n_fitting is at least one when qmax is positive and the tail is
non-empty. -/
theorem n_fitting_ge_one (qmax : ℚ) (n_false : ℕ) (hq : 0 < qmax)
    (hn : 1 ≤ n_false) : 1 ≤ n_fittingOf qmax n_false := by
  rw [n_fittingOf]
  have hpos : (0:ℚ) < (n_false : ℚ) := by
    have : 0 < n_false := hn
    exact_mod_cast this
  have h1 : (0:ℚ) < qmax * (n_false : ℚ) := by positivity
  have := Int.one_le_ceil_iff.mpr h1
  omega

/-- n_fitting never exceeds n_false when qmax is at most one. -/
theorem n_fitting_le (qmax : ℚ) (n_false : ℕ) (hq0 : 0 ≤ qmax)
    (hq1 : qmax ≤ 1) : n_fittingOf qmax n_false ≤ n_false := by
  rw [n_fittingOf]
  have h3 : Int.ceil (qmax * (n_false:ℚ)) ≤ Int.ceil ((n_false:ℚ)) :=
    Int.ceil_le_ceil (by nlinarith [Nat.cast_nonneg (α := ℚ) n_false])
  rw [Int.ceil_natCast] at h3
  omega

/-- Claim C3 counterexample: with qmax = 1 and the sample [1, 2]
(tol = 0), n_false = 2 and n_fitting = ceil(qmax * n_false) = 2, but the
slice linspace(0, 1, n_false)[1 : n_fitting + 1] keeps only one point,
not the claimed next n_fitting = 2 points. -/
theorem C3_counterexample :
    n_falseOf 0 [1, 2] = 2 ∧
    n_fittingOf 1 (n_falseOf 0 [1, 2]) = 2 ∧
    (qOf (n_falseOf 0 [1, 2]) (n_fittingOf 1 (n_falseOf 0 [1, 2]))).length = 1 := by
  have h1 : n_falseOf (0:ℚ) [1, 2] = 2 := by
    norm_num [n_falseOf, List.countP_cons]
  have h2 : n_fittingOf 1 2 = 2 := by
    norm_num [n_fittingOf]
    rfl
  refine ⟨h1, by rw [h1]; exact h2, ?_⟩
  rw [h1, h2, qOf, List.length_take, List.length_drop, linspace_length]
  rfl

/-- Claim C3 (amended): for qmax in (0, 1] and a non-empty tail,
n_fitting = ceil(qmax * n_false) lies between 1 and n_false, and the
tail is the top n_fitting values of the descending-sorted sample.  When
additionally n_fitting <= n_false - 1 (the regime the claim's wording
presupposes; otherwise the slice truncates to n_false - 1 points), the
kept quantile positions are exactly the n_fitting points following the
discarded zero of the n_false-point uniform grid on [0, 1], the i-th
being (i + 1) / (n_false - 1), and log_q is their finite elementwise
log10. -/
theorem C3_amended (qmax tol : ℚ) (lrt : List ℚ) (lf : ℚ → ℚ)
    (hq0 : 0 < qmax) (hq1 : qmax ≤ 1)
    (hn : 1 ≤ n_falseOf tol lrt)
    (ham : n_fittingOf qmax (n_falseOf tol lrt) + 1 ≤ n_falseOf tol lrt) :
    (1 ≤ n_fittingOf qmax (n_falseOf tol lrt) ∧
      n_fittingOf qmax (n_falseOf tol lrt) ≤ n_falseOf tol lrt) ∧
    lrt_sortedOf lrt (n_fittingOf qmax (n_falseOf tol lrt)) =
      (specSortDesc lrt).take (n_fittingOf qmax (n_falseOf tol lrt)) ∧
    (qOf (n_falseOf tol lrt) (n_fittingOf qmax (n_falseOf tol lrt))).length =
      n_fittingOf qmax (n_falseOf tol lrt) ∧
    (∀ i, i < n_fittingOf qmax (n_falseOf tol lrt) →
      (qOf (n_falseOf tol lrt) (n_fittingOf qmax (n_falseOf tol lrt))).getD i 0 =
        ((i : ℚ) + 1) / ((n_falseOf tol lrt : ℚ) - 1)) ∧
    (qOf (n_falseOf tol lrt) (n_fittingOf qmax (n_falseOf tol lrt))).map
        (log10E lf) =
      (qOf (n_falseOf tol lrt) (n_fittingOf qmax (n_falseOf tol lrt))).map
        (fun x => Fval.fin (lf x)) := by
  refine ⟨⟨n_fitting_ge_one qmax _ hq0 hn, n_fitting_le qmax _ (le_of_lt hq0) hq1⟩,
    lrt_sortedOf_eq lrt _, qOf_length _ _ ham,
    fun i hi => qOf_getD _ _ i ham hi, ?_⟩
  refine List.map_congr_left ?_
  intro x hx
  have hxpos := qOf_pos _ _ ham x hx
  simp [log10E, hxpos]

/-- Witness for C3 (amended) at a concrete sample and qmax = 1/2. -/
theorem C3_witness :
    ((0:ℚ) < 1/2 ∧ (1:ℚ)/2 ≤ 1 ∧ 1 ≤ n_falseOf 0 [1, 2, 3, 4] ∧
      n_fittingOf (1/2) (n_falseOf 0 [1, 2, 3, 4]) + 1 ≤ n_falseOf 0 [1, 2, 3, 4]) ∧
    ((1 ≤ n_fittingOf (1/2) (n_falseOf 0 [1, 2, 3, 4]) ∧
      n_fittingOf (1/2) (n_falseOf 0 [1, 2, 3, 4]) ≤ n_falseOf 0 [1, 2, 3, 4]) ∧
    lrt_sortedOf [1, 2, 3, 4] (n_fittingOf (1/2) (n_falseOf 0 [1, 2, 3, 4])) =
      (specSortDesc [1, 2, 3, 4]).take (n_fittingOf (1/2) (n_falseOf 0 [1, 2, 3, 4])) ∧
    (qOf (n_falseOf 0 [1, 2, 3, 4]) (n_fittingOf (1/2) (n_falseOf 0 [1, 2, 3, 4]))).length =
      n_fittingOf (1/2) (n_falseOf 0 [1, 2, 3, 4]) ∧
    (∀ i, i < n_fittingOf (1/2) (n_falseOf 0 [1, 2, 3, 4]) →
      (qOf (n_falseOf 0 [1, 2, 3, 4])
          (n_fittingOf (1/2) (n_falseOf 0 [1, 2, 3, 4]))).getD i 0 =
        ((i : ℚ) + 1) / ((n_falseOf 0 [1, 2, 3, 4] : ℚ) - 1)) ∧
    (qOf (n_falseOf 0 [1, 2, 3, 4]) (n_fittingOf (1/2) (n_falseOf 0 [1, 2, 3, 4]))).map
        (log10E id) =
      (qOf (n_falseOf 0 [1, 2, 3, 4]) (n_fittingOf (1/2) (n_falseOf 0 [1, 2, 3, 4]))).map
        (fun x => Fval.fin (id x))) := by
  have hnf : n_falseOf (0:ℚ) [1, 2, 3, 4] = 4 := by
    norm_num [n_falseOf, List.countP_cons]
  have hfit : n_fittingOf ((1:ℚ)/2) 4 = 2 := by
    norm_num [n_fittingOf]
    rfl
  refine ⟨⟨by norm_num, by norm_num, by rw [hnf]; omega,
    by rw [hnf, hfit]; omega⟩, ?_⟩
  exact C3_amended (1/2) 0 [1, 2, 3, 4] id (by norm_num) (by norm_num)
    (by rw [hnf]; omega) (by rw [hnf, hfit]; omega)

/-- Folding IEEE addition over finite-or-plus-infinity values stays
finite-or-plus-infinity, and produces plus infinity exactly when it
started there or met it. -/
theorem fval_foldl_add_pinf (l : List Fval) :
    ∀ (acc : Fval),
    (∀ e ∈ l, (∃ r, e = Fval.fin r) ∨ e = Fval.pinf) →
    ((∃ r, acc = Fval.fin r) ∨ acc = Fval.pinf) →
    ((∃ r, l.foldl Fval.add acc = Fval.fin r) ∨
      l.foldl Fval.add acc = Fval.pinf) ∧
    (l.foldl Fval.add acc = Fval.pinf ↔
      (acc = Fval.pinf ∨ Fval.pinf ∈ l)) := by
  induction l with
  | nil =>
    intro acc hall hacc
    exact ⟨hacc, by simp⟩
  | cons e rest ih =>
    intro acc hall hacc
    have he := hall e (List.mem_cons_self e rest)
    have hsum : ((∃ r, Fval.add acc e = Fval.fin r) ∨
        Fval.add acc e = Fval.pinf) ∧
        (Fval.add acc e = Fval.pinf ↔ (acc = Fval.pinf ∨ e = Fval.pinf)) := by
      rcases hacc with ⟨r, rfl⟩ | rfl <;> rcases he with ⟨r2, rfl⟩ | rfl <;>
        simp [Fval.add]
    have hrest := fun x hx => hall x (List.mem_cons_of_mem _ hx)
    obtain ⟨ih1, ih2⟩ := ih (Fval.add acc e) hrest hsum.1
    refine ⟨ih1, ?_⟩
    rw [List.foldl_cons, ih2, hsum.2, List.mem_cons]
    constructor
    · rintro ((h | h) | h)
      · exact Or.inl h
      · exact Or.inr (Or.inl h.symm)
      · exact Or.inr (Or.inr h)
    · rintro (h | h | h)
      · exact Or.inl (Or.inl h)
      · exact Or.inl (Or.inr h.symm)
      · exact Or.inr h

/-- The numpy sum of a slice of finite-or-plus-infinity values
containing a plus infinity is plus infinity. -/
theorem sumFv_pinf (l : List Fval)
    (hall : ∀ e ∈ l, (∃ r, e = Fval.fin r) ∨ e = Fval.pinf)
    (hex : Fval.pinf ∈ l) : sumFv l = Fval.pinf := by
  unfold sumFv
  exact (fval_foldl_add_pinf l (Fval.fin 0) hall (Or.inl ⟨0, rfl⟩)).2.mpr
    (Or.inr hex)

/-- The numpy mean of a non-empty slice summing to plus infinity is plus
infinity. -/
theorem meanFv_pinf (l : List Fval) (h : sumFv l = Fval.pinf)
    (hne : l ≠ []) : meanFv l = Fval.pinf := by
  unfold meanFv
  rw [h]
  cases l with
  | nil => exact absurd rfl hne
  | cons a as => rfl

/-- The squared deviations of a grid cell whose survival probabilities
are non-negative, against finite log-quantiles, are each finite or plus
infinity; and a zero probability contributes a plus infinity. -/
theorem cell_terms_pinf (lf : ℚ → ℚ) (f : ℚ → ℚ) (lq : List Fval) :
    ∀ (tl : List ℚ), lq.length = tl.length →
    (∀ e ∈ lq, ∃ r, e = Fval.fin r) → (∀ t ∈ tl, 0 ≤ f t) →
    (∀ e ∈ (List.zipWith Fval.sub lq ((tl.map f).map (log10E lf))).map Fval.sq,
      (∃ r, e = Fval.fin r) ∨ e = Fval.pinf) ∧
    ((∃ t ∈ tl, f t = 0) →
      Fval.pinf ∈
        (List.zipWith Fval.sub lq ((tl.map f).map (log10E lf))).map Fval.sq) := by
  induction lq with
  | nil =>
    intro tl hlen _ _
    have htl : tl = [] := by
      cases tl with
      | nil => rfl
      | cons a as => simp at hlen
    subst htl
    refine ⟨fun e he => by simp at he, fun h => by simp at h⟩
  | cons e lq2 ih =>
    intro tl hlen hfin hnn
    cases tl with
    | nil => simp at hlen
    | cons t tl2 =>
      obtain ⟨r, rfl⟩ := hfin _ (List.mem_cons_self _ _)
      have hnn_t := hnn t (List.mem_cons_self _ _)
      have hlen2 : lq2.length = tl2.length := by simpa using hlen
      obtain ⟨ihA, ihB⟩ := ih tl2 hlen2
        (fun x hx => hfin x (List.mem_cons_of_mem _ hx))
        (fun x hx => hnn x (List.mem_cons_of_mem _ hx))
      simp only [List.map_cons, List.zipWith_cons_cons]
      constructor
      · intro x hx
        rcases List.mem_cons.mp hx with rfl | hx2
        · rcases hnn_t.lt_or_eq with hpos | hzero
          · left
            refine ⟨(r - lf (f t)) * (r - lf (f t)), ?_⟩
            simp [log10E, hpos, Fval.sub, Fval.sq]
          · right
            simp [log10E, ← hzero, Fval.sub, Fval.sq]
        · exact ihA x hx2
      · rintro ⟨t0, ht0, h0⟩
        rcases List.mem_cons.mp ht0 with rfl | ht02
        · refine List.mem_cons.mpr (Or.inl ?_)
          simp [log10E, h0, Fval.sub, Fval.sq]
        · exact List.mem_cons_of_mem _ (ihB ⟨t0, ht02, h0⟩)

/-- Claim C6 counterexample: at a cell where the survival probability is
exactly zero, the code's error is plus infinity (log10 of zero is taken
directly), which differs from the finite value any clamp-to-a-positive-
floor policy (here floor 10^-6) would produce; so no clamping happens
before the logarithm. -/
theorem C6_counterexample :
    cellError (fun _ _ => 0) id [Fval.fin 0] [1] 1 1 = some Fval.pinf ∧
    clampCellError (1/1000000) (fun _ _ => 0) id [0] [1] 1 1 =
      1/1000000000000 ∧
    some (Fval.fin (clampCellError (1/1000000) (fun _ _ => 0) id [0] [1] 1 1)) ≠
      cellError (fun _ _ => 0) id [Fval.fin 0] [1] 1 1 := by
  have h1 : cellError (fun _ _ => (0:ℚ)) id [Fval.fin 0] [1] 1 1 =
      some Fval.pinf := by
    simp [cellError, broadcastSub, meanFv, sumFv, Fval.sub, Fval.sq, Fval.add,
      Fval.divN, log10E]
  have h2 : clampCellError (1/1000000) (fun _ _ => (0:ℚ)) id [0] [1] 1 1 =
      1/1000000000000 := by
    rw [clampCellError]
    norm_num [max_def]
  refine ⟨h1, h2, ?_⟩
  rw [h1, h2]
  simp

/-- Claim C6 (amended): a grid cell in which the survival function
returns exactly zero for some tail statistic is handled without
clamping: log10 of the zero probability is minus infinity, the squared
deviation is plus infinity, and the cell's mean-squared error is plus
infinity — a non-NaN value that the running-minimum comparison never
selects — so the search neither crashes nor propagates NaN from this
cell. -/
theorem C6_amended (sfc : ℚ → ℚ → ℚ) (lf : ℚ → ℚ) (log_q : List Fval)
    (tail : List ℚ) (scale dof : ℚ)
    (hlen : log_q.length = tail.length)
    (hfin : ∀ e ∈ log_q, ∃ r, e = Fval.fin r)
    (hnn : ∀ t ∈ tail, 0 ≤ sfc (t / scale) dof)
    (hzero : ∃ t ∈ tail, sfc (t / scale) dof = 0) :
    cellError sfc lf log_q tail scale dof = some Fval.pinf ∧
    Fval.pinf ≠ Fval.nan ∧
    (∀ g : GState, gridStep g scale dof Fval.pinf = g) := by
  obtain ⟨hA, hB⟩ := cell_terms_pinf lf (fun t => sfc (t / scale) dof)
    log_q tail hlen hfin hnn
  have hmem := hB hzero
  refine ⟨?_, by simp, ?_⟩
  · simp only [cellError, broadcastSub]
    rw [if_pos (by simp [hlen])]
    simp only [Option.map_some']
    congr 1
    refine meanFv_pinf _ (sumFv_pinf _ hA hmem) ?_
    intro hnil
    rw [hnil] at hmem
    simp at hmem
  · intro g
    cases hM : g.MSE_opt <;> simp [gridStep, Fval.ltB, hM]

/-- Witness for C6 (amended) at a concrete zero-probability cell. -/
theorem C6_witness :
    (([Fval.fin 0] : List Fval).length = ([1] : List ℚ).length ∧
      (∀ e ∈ ([Fval.fin 0] : List Fval), ∃ r, e = Fval.fin r) ∧
      (∀ t ∈ ([1] : List ℚ), 0 ≤ (fun _ _ => (0:ℚ)) (t / 1) 1) ∧
      (∃ t ∈ ([1] : List ℚ), (fun _ _ => (0:ℚ)) (t / 1) 1 = 0)) ∧
    (cellError (fun _ _ => (0:ℚ)) id [Fval.fin 0] [1] 1 1 = some Fval.pinf ∧
      Fval.pinf ≠ Fval.nan ∧
      (∀ g : GState, gridStep g 1 1 Fval.pinf = g)) :=
  ⟨⟨rfl, fun e he => ⟨0, List.mem_singleton.mp he⟩,
     fun _ _ => le_refl 0, ⟨1, List.mem_singleton.mpr rfl, rfl⟩⟩,
   C6_amended (fun _ _ => (0:ℚ)) id [Fval.fin 0] [1] 1 1 rfl
     (fun e he => ⟨0, List.mem_singleton.mp he⟩)
     (fun _ _ => le_refl 0) ⟨1, List.mem_singleton.mpr rfl, rfl⟩⟩

/-- Ascending insertion grows the length by one. -/
theorem insertAsc_length (x : ℚ) (l : List ℚ) :
    (insertAsc x l).length = l.length + 1 := by
  induction l with
  | nil => rfl
  | cons y ys ih =>
    rw [insertAsc]
    by_cases h : x ≤ y
    · rw [if_pos h]
      rfl
    · rw [if_neg h, List.length_cons, ih]
      rfl

/-- Sorting preserves the length. -/
theorem sortAsc_length (l : List ℚ) : (sortAsc l).length = l.length := by
  induction l with
  | nil => rfl
  | cons a as ih =>
    show (insertAsc a (sortAsc as)).length = as.length + 1
    rw [insertAsc_length, ih]

/-- The tail has min(n_fitting, n) elements. -/
theorem lrt_sortedOf_length (lrt : List ℚ) (n : ℕ) :
    (lrt_sortedOf lrt n).length = min n lrt.length := by
  rw [lrt_sortedOf, List.length_take, List.length_map, sortAsc_length,
    List.length_map]

/-- With an empty log-quantile vector against a one-element tail, every
grid cell broadcasts to an empty slice whose mean is NaN, so the search
never assigns scale or dof. -/
theorem runGrid_nil_logq (sfc : ℚ → ℚ → ℚ) (lf : ℚ → ℚ) (t : ℚ)
    (cells : List (ℚ × ℚ)) (g : GState) :
    runGrid sfc lf [] [t] cells g = .ok g := by
  induction cells generalizing g with
  | nil => rfl
  | cons c rest ih =>
    simp [runGrid, cellError, broadcastSub, meanFv, sumFv, Fval.divN,
      gridStep, Fval.ltB, ih]

/-- Claim C1 counterexample: the sample [1] is non-empty with a value
exceeding tol = 0 (so the claim asserts a grid pair and minimum error
are produced), yet the slice q is empty (linspace(0,1,1) = [0] loses its
only point), every cell error is the NaN mean of an empty broadcast, and
estimate returns with scale and dof never assigned — no grid value and
no mse are produced. -/
theorem C1_counterexample :
    Chi2mixture.estimate_chi2mixture (fun _ _ => (1:ℚ)/2) id
      (Chi2mixture.init 1 2 1 2 2 (1/2) 0) [1] =
      .ok ⟨⟨1, 2, 1, 2, 2, 1/2, 0⟩, some 1, none, none⟩ := by
  have hnf : n_falseOf (0:ℚ) [1] = 1 := by
    norm_num [n_falseOf, List.countP_cons]
  have hfit : n_fittingOf ((1:ℚ)/2) 1 = 1 := by
    have hc : ⌈(1:ℚ)/2⌉ = (1:ℤ) := by
      rw [Int.ceil_eq_iff]
      constructor <;> norm_num
    rw [n_fittingOf]
    push_cast
    norm_num [hc]
  have hsort : lrt_sortedOf [1] 1 = [1] := by
    simp [lrt_sortedOf, sortAsc, insertAsc]
  have hq : qOf 1 1 = [] := by
    simp [qOf, linspace]
  have hmix : mixtureOf (0:ℚ) [1] = 1 := by
    norm_num [mixtureOf, List.countP_cons]
  simp only [Chi2mixture.estimate_chi2mixture, Chi2mixture.init, hnf, hfit,
    hsort, hq, hmix, List.map_nil, runGrid_nil_logq]

/-- Folding IEEE addition over finite values computes the rational sum. -/
theorem foldl_add_fin (l : List ℚ) :
    ∀ acc : ℚ, (l.map Fval.fin).foldl Fval.add (Fval.fin acc) =
      Fval.fin (acc + l.sum) := by
  induction l with
  | nil =>
    intro acc
    simp
  | cons a as ih =>
    intro acc
    rw [List.map_cons, List.foldl_cons]
    show (as.map Fval.fin).foldl Fval.add (Fval.fin (acc + a)) = _
    rw [ih (acc + a), List.sum_cons]
    ring_nf

/-- The numpy sum of finite values is the finite rational sum. -/
theorem sumFv_map_fin (l : List ℚ) :
    sumFv (l.map Fval.fin) = Fval.fin l.sum := by
  unfold sumFv
  rw [foldl_add_fin l 0, zero_add]

/-- The numpy mean of a non-empty slice of finite values is the finite
rational mean. -/
theorem meanFv_map_fin (l : List ℚ) (h : l ≠ []) :
    meanFv (l.map Fval.fin) = Fval.fin (l.sum / (l.length : ℚ)) := by
  unfold meanFv
  rw [sumFv_map_fin, List.length_map]
  cases l with
  | nil => exact absurd rfl h
  | cons a as =>
    show Fval.fin _ = _
    norm_num

/-- A grid cell whose survival probabilities are all positive computes
exactly the finite mean-squared log-quantile error of claim C1. -/
theorem cellError_fin (sfc : ℚ → ℚ → ℚ) (lf : ℚ → ℚ) (qs tail : List ℚ)
    (scale dof : ℚ) (hlen : qs.length = tail.length) (hne : tail ≠ [])
    (hq : ∀ x ∈ qs, 0 < x)
    (hp : ∀ t ∈ tail, 0 < sfc (t / scale) dof) :
    cellError sfc lf (qs.map (log10E lf)) tail scale dof =
      some (Fval.fin (claimCellMSE sfc lf qs tail scale dof)) := by
  have hlq : qs.map (log10E lf) = qs.map (fun x => Fval.fin (lf x)) :=
    List.map_congr_left (fun x hx => by simp [log10E, hq x hx])
  have hlp : (tail.map (fun t => sfc (t / scale) dof)).map (log10E lf) =
      tail.map (fun t => Fval.fin (lf (sfc (t / scale) dof))) := by
    rw [List.map_map]
    exact List.map_congr_left (fun t ht => by
      simp [Function.comp, log10E, hp t ht])
  simp only [cellError, hlq, hlp, broadcastSub]
  rw [if_pos (by simp [hlen])]
  rw [List.zipWith_map]
  have hcalc : (List.zipWith
      (fun a b => Fval.sub (Fval.fin (lf a)) (Fval.fin (lf (sfc (b / scale) dof))))
      qs tail).map Fval.sq =
      (List.zipWith (fun a b => (lf a - lf (sfc (b / scale) dof)) ^ 2)
        qs tail).map Fval.fin := by
    rw [List.map_zipWith, List.map_zipWith]
    congr 1
    funext a b
    simp [Fval.sub, Fval.sq, pow_two]
  have hzlen : (List.zipWith (fun a b => (lf a - lf (sfc (b / scale) dof)) ^ 2)
      qs tail).length = tail.length := by
    rw [List.length_zipWith, hlen, min_self]
  have hzne : List.zipWith (fun a b => (lf a - lf (sfc (b / scale) dof)) ^ 2)
      qs tail ≠ [] := by
    intro hcon
    rw [hcon] at hzlen
    exact hne (List.length_eq_zero.mp hzlen.symm)
  simp only [Option.map_some']
  rw [hcalc, meanFv_map_fin _ hzne, hzlen]
  rfl

/-- When every cell evaluates to a finite error, the grid loop is the
plain left fold of the running-minimum update. -/
theorem runGrid_eq_foldl (sfc : ℚ → ℚ → ℚ) (lf : ℚ → ℚ)
    (log_q : List Fval) (tail : List ℚ) (errf : ℚ × ℚ → ℚ)
    (cells : List (ℚ × ℚ))
    (hcell : ∀ c ∈ cells, cellError sfc lf log_q tail c.1 c.2 =
      some (Fval.fin (errf c))) :
    ∀ g : GState, runGrid sfc lf log_q tail cells g =
      .ok (cells.foldl (fun g2 c => gridStep g2 c.1 c.2 (Fval.fin (errf c))) g) := by
  induction cells with
  | nil => intro g; rfl
  | cons c rest ih =>
    intro g
    rw [runGrid, hcell c (List.mem_cons_self c rest)]
    rw [List.foldl_cons]
    exact ih (fun x hx => hcell x (List.mem_cons_of_mem _ hx)) _

/-- The left fold of the running-minimum update resolves to the first
minimum of the cell list, applied against the incoming optimum. -/
theorem foldl_gridStep_selectMin (errf : ℚ × ℚ → ℚ)
    (cells : List (ℚ × ℚ)) :
    ∀ g : GState,
    cells.foldl (fun g2 c => gridStep g2 c.1 c.2 (Fval.fin (errf c))) g =
      applySel g (selectMin errf cells) := by
  induction cells with
  | nil => intro g; rfl
  | cons c rest ih =>
    intro g
    rw [List.foldl_cons, ih]
    cases hrest : selectMin errf rest with
    | none =>
      simp only [selectMin, hrest, applySel, gridStep]
    | some p =>
      simp only [selectMin, hrest]
      by_cases h1 : p.2 < errf c
      · rw [if_pos h1]
        unfold applySel gridStep
        cases hM : g.MSE_opt with
        | fin m =>
          by_cases hcm : errf c < m
          · simp [Fval.ltB, hcm, h1, lt_trans h1 hcm]
          · simp [Fval.ltB, hcm, hM]
        | pinf => simp [Fval.ltB, h1]
        | ninf => simp [Fval.ltB, hM]
        | nan => simp [Fval.ltB, hM]
      · rw [if_neg h1]
        unfold applySel gridStep
        have hce : errf c ≤ p.2 := le_of_not_lt h1
        cases hM : g.MSE_opt with
        | fin m =>
          by_cases hcm : errf c < m
          · simp [Fval.ltB, hcm, not_lt.mpr hce]
          · simp [Fval.ltB, hcm, hM,
              not_lt.mpr (le_trans (not_lt.mp hcm) hce)]
        | pinf => simp [Fval.ltB, not_lt.mpr hce]
        | ninf => simp [Fval.ltB, hM]
        | nan => simp [Fval.ltB, hM]

/-- selectMin returns the first index attaining the minimum error:
its cell, weak minimality over the whole list, and strict dominance over
every earlier cell. -/
theorem selectMin_spec (errf : ℚ × ℚ → ℚ) :
    ∀ (cells : List (ℚ × ℚ)), cells ≠ [] →
    ∃ k, ∃ hk : k < cells.length,
      selectMin errf cells =
        some (cells.get ⟨k, hk⟩, errf (cells.get ⟨k, hk⟩)) ∧
      (∀ j, ∀ hj : j < cells.length,
        errf (cells.get ⟨k, hk⟩) ≤ errf (cells.get ⟨j, hj⟩)) ∧
      (∀ j, ∀ hj : j < k,
        errf (cells.get ⟨k, hk⟩) < errf (cells.get ⟨j, lt_trans hj hk⟩)) := by
  intro cells
  induction cells with
  | nil => intro h; exact absurd rfl h
  | cons c rest ih =>
    intro _
    cases hrest : selectMin errf rest with
    | none =>
      cases rest with
      | nil =>
        refine ⟨0, by simp, by simp [selectMin], ?_, ?_⟩
        · intro j hj
          have hj0 : j = 0 := by simpa using hj
          subst hj0
          exact le_refl _
        · intro j hj
          exact absurd hj (Nat.not_lt_zero j)
      | cons c2 rest2 =>
        exfalso
        rw [selectMin] at hrest
        cases h2 : selectMin errf rest2 with
        | none =>
          rw [h2] at hrest
          simp at hrest
        | some p2 =>
          rw [h2] at hrest
          by_cases h3 : p2.2 < errf c2 <;> simp [h3] at hrest
    | some p =>
      have hrne : rest ≠ [] := by
        intro hcon
        rw [hcon] at hrest
        simp [selectMin] at hrest
      obtain ⟨k, hk, hsel, hmin, hfirst⟩ := ih hrne
      have hp : p = (rest.get ⟨k, hk⟩, errf (rest.get ⟨k, hk⟩)) := by
        rw [hsel] at hrest
        exact (Option.some.inj hrest).symm
      subst hp
      rw [selectMin, hrest]
      dsimp only
      by_cases hcmp : errf (rest.get ⟨k, hk⟩) < errf c
      · rw [if_pos hcmp]
        refine ⟨k + 1, by simp [Nat.succ_lt_succ hk], ?_, ?_, ?_⟩
        · simp
        · intro j hj
          cases j with
          | zero => simpa using le_of_lt hcmp
          | succ j2 =>
            have hj2 : j2 < rest.length := by simpa using hj
            simpa using hmin j2 hj2
        · intro j hj
          cases j with
          | zero => simpa using hcmp
          | succ j2 =>
            have hj2 : j2 < k := by omega
            simpa using hfirst j2 hj2
      · rw [if_neg hcmp]
        refine ⟨0, by simp, by simp, ?_, ?_⟩
        · intro j hj
          cases j with
          | zero => exact le_refl _
          | succ j2 =>
            have hj2 : j2 < rest.length := by simpa using hj
            have h4 := hmin j2 hj2
            have hle : errf c ≤ errf (rest.get ⟨k, hk⟩) := le_of_not_lt hcmp
            simpa using le_trans hle h4
        · intro j hj
          exact absurd hj (Nat.not_lt_zero j)

/-- The grid is non-empty whenever n_intervals is at least one. -/
theorem gridCells_ne_nil (cfg : Config) (h : 1 ≤ cfg.n_intervals) :
    gridCells cfg ≠ [] := by
  have h1 : (linspace cfg.scale_min cfg.scale_max cfg.n_intervals).length =
      cfg.n_intervals := linspace_length _ _ _
  have h2 : (linspace cfg.dof_min cfg.dof_max cfg.n_intervals).length =
      cfg.n_intervals := linspace_length _ _ _
  cases hS : linspace cfg.scale_min cfg.scale_max cfg.n_intervals with
  | nil =>
    rw [hS] at h1
    simp at h1
    omega
  | cons s ss =>
    cases hD : linspace cfg.dof_min cfg.dof_max cfg.n_intervals with
    | nil =>
      rw [hD] at h2
      simp at h2
      omega
    | cons d ds =>
      simp [gridCells, hS, hD]

/-- Any grid cell's coordinates are values of the two linspace grids. -/
theorem gridCells_mem (cfg : Config) (c : ℚ × ℚ) (hc : c ∈ gridCells cfg) :
    c.1 ∈ linspace cfg.scale_min cfg.scale_max cfg.n_intervals ∧
    c.2 ∈ linspace cfg.dof_min cfg.dof_max cfg.n_intervals := by
  rw [gridCells, List.mem_flatMap] at hc
  obtain ⟨s, hs, hc2⟩ := hc
  rw [List.mem_map] at hc2
  obtain ⟨d, hd, rfl⟩ := hc2
  exact ⟨hs, hd⟩

/-- Claim C1 (amended): when qmax is positive, some statistic exceeds
tol, n_fitting + 1 <= n_false (so the quantile slice does not truncate;
otherwise the search degenerates as in the counterexample), the grid is
non-empty, and the survival probabilities over the grid are positive
(so every log10 is finite), estimate returns normally with self.scale
and self.dof set to the grid cell attaining the minimum of the claim's
mean-squared log-quantile error, ties keeping the first cell in
scale-outer, dof-inner order; both coordinates are values of the
discrete grids.  The minimum error itself is computed but not exposed:
the code stores no mse attribute. -/
theorem C1_amended (sfc : ℚ → ℚ → ℚ) (lf : ℚ → ℚ) (self : Chi2mixture)
    (lrt : List ℚ)
    (hq0 : 0 < self.cfg.qmax)
    (hn : 1 ≤ n_falseOf self.cfg.tol lrt)
    (ham : n_fittingOf self.cfg.qmax (n_falseOf self.cfg.tol lrt) + 1 ≤
      n_falseOf self.cfg.tol lrt)
    (hni : 1 ≤ self.cfg.n_intervals)
    (hpos : ∀ c ∈ gridCells self.cfg,
      ∀ t ∈ lrt_sortedOf lrt
        (n_fittingOf self.cfg.qmax (n_falseOf self.cfg.tol lrt)),
      0 < sfc (t / c.1) c.2) :
    ∃ st, Chi2mixture.estimate_chi2mixture sfc lf self lrt = .ok st ∧
      ∃ k, ∃ hk : k < (gridCells self.cfg).length,
        st.mixture = some (mixtureOf self.cfg.tol lrt) ∧
        st.scale = some (((gridCells self.cfg).get ⟨k, hk⟩).1) ∧
        st.dof = some (((gridCells self.cfg).get ⟨k, hk⟩).2) ∧
        ((gridCells self.cfg).get ⟨k, hk⟩).1 ∈
          linspace self.cfg.scale_min self.cfg.scale_max self.cfg.n_intervals ∧
        ((gridCells self.cfg).get ⟨k, hk⟩).2 ∈
          linspace self.cfg.dof_min self.cfg.dof_max self.cfg.n_intervals ∧
        (∀ j, ∀ hj : j < (gridCells self.cfg).length,
          claimErrAt sfc lf self.cfg lrt ((gridCells self.cfg).get ⟨k, hk⟩) ≤
            claimErrAt sfc lf self.cfg lrt ((gridCells self.cfg).get ⟨j, hj⟩)) ∧
        (∀ j, ∀ hj : j < k,
          claimErrAt sfc lf self.cfg lrt ((gridCells self.cfg).get ⟨k, hk⟩) <
            claimErrAt sfc lf self.cfg lrt
              ((gridCells self.cfg).get ⟨j, lt_trans hj hk⟩)) := by
  have hfit1 : 1 ≤ n_fittingOf self.cfg.qmax (n_falseOf self.cfg.tol lrt) :=
    n_fitting_ge_one _ _ hq0 hn
  have hnlen : n_falseOf self.cfg.tol lrt ≤ lrt.length :=
    List.countP_le_length _
  have hlen_t : (lrt_sortedOf lrt
      (n_fittingOf self.cfg.qmax (n_falseOf self.cfg.tol lrt))).length =
      n_fittingOf self.cfg.qmax (n_falseOf self.cfg.tol lrt) := by
    rw [lrt_sortedOf_length]
    exact min_eq_left (by omega)
  have htne : lrt_sortedOf lrt
      (n_fittingOf self.cfg.qmax (n_falseOf self.cfg.tol lrt)) ≠ [] := by
    intro hcon
    rw [hcon] at hlen_t
    simp at hlen_t
    omega
  have hcell : ∀ c ∈ gridCells self.cfg,
      cellError sfc lf
        ((qOf (n_falseOf self.cfg.tol lrt)
          (n_fittingOf self.cfg.qmax (n_falseOf self.cfg.tol lrt))).map
            (log10E lf))
        (lrt_sortedOf lrt
          (n_fittingOf self.cfg.qmax (n_falseOf self.cfg.tol lrt)))
        c.1 c.2 =
        some (Fval.fin (claimErrAt sfc lf self.cfg lrt c)) := by
    intro c hc
    exact cellError_fin sfc lf _ _ c.1 c.2
      (by rw [qOf_length _ _ ham, hlen_t]) htne
      (qOf_pos _ _ ham) (fun t ht => hpos c hc t ht)
  obtain ⟨k, hk, hsel, hmin, hfirst⟩ :=
    selectMin_spec (claimErrAt sfc lf self.cfg lrt) (gridCells self.cfg)
      (gridCells_ne_nil self.cfg hni)
  have hrun : runGrid sfc lf
      ((qOf (n_falseOf self.cfg.tol lrt)
        (n_fittingOf self.cfg.qmax (n_falseOf self.cfg.tol lrt))).map
          (log10E lf))
      (lrt_sortedOf lrt
        (n_fittingOf self.cfg.qmax (n_falseOf self.cfg.tol lrt)))
      (gridCells self.cfg) ⟨Fval.pinf, self.scale, self.dof⟩ =
      .ok ⟨Fval.fin (claimErrAt sfc lf self.cfg lrt
          ((gridCells self.cfg).get ⟨k, hk⟩)),
        some (((gridCells self.cfg).get ⟨k, hk⟩).1),
        some (((gridCells self.cfg).get ⟨k, hk⟩).2)⟩ := by
    rw [runGrid_eq_foldl sfc lf _ _ (claimErrAt sfc lf self.cfg lrt) _ hcell,
      foldl_gridStep_selectMin, hsel]
    simp [applySel, Fval.ltB]
  have hmem := gridCells_mem self.cfg _
    (List.get_mem (gridCells self.cfg) _ hk)
  refine ⟨⟨self.cfg, some (mixtureOf self.cfg.tol lrt),
      some (((gridCells self.cfg).get ⟨k, hk⟩).1),
      some (((gridCells self.cfg).get ⟨k, hk⟩).2)⟩, ?_,
    k, hk, rfl, rfl, rfl, hmem.1, hmem.2, hmin, hfirst⟩
  simp only [Chi2mixture.estimate_chi2mixture, hrun]

/-- Witness for C1 (amended) at a concrete 2 x 2 grid, qmax = 1/2 and
the sample [1, 2, 3, 4]. -/
theorem C1_witness :
    ((0:ℚ) < (Chi2mixture.init 1 2 1 2 2 (1/2) 0).cfg.qmax ∧
      1 ≤ n_falseOf (Chi2mixture.init 1 2 1 2 2 (1/2) 0).cfg.tol [1, 2, 3, 4] ∧
      n_fittingOf (Chi2mixture.init 1 2 1 2 2 (1/2) 0).cfg.qmax
          (n_falseOf (Chi2mixture.init 1 2 1 2 2 (1/2) 0).cfg.tol [1, 2, 3, 4]) + 1 ≤
        n_falseOf (Chi2mixture.init 1 2 1 2 2 (1/2) 0).cfg.tol [1, 2, 3, 4] ∧
      1 ≤ (Chi2mixture.init 1 2 1 2 2 (1/2) 0).cfg.n_intervals ∧
      (∀ c ∈ gridCells (Chi2mixture.init 1 2 1 2 2 (1/2) 0).cfg,
        ∀ t ∈ lrt_sortedOf [1, 2, 3, 4]
          (n_fittingOf (Chi2mixture.init 1 2 1 2 2 (1/2) 0).cfg.qmax
            (n_falseOf (Chi2mixture.init 1 2 1 2 2 (1/2) 0).cfg.tol [1, 2, 3, 4])),
        0 < (fun _ _ => (1:ℚ)/2) (t / c.1) c.2)) ∧
    (∃ st, Chi2mixture.estimate_chi2mixture (fun _ _ => (1:ℚ)/2) id
        (Chi2mixture.init 1 2 1 2 2 (1/2) 0) [1, 2, 3, 4] = .ok st ∧
      ∃ k, ∃ hk : k < (gridCells (Chi2mixture.init 1 2 1 2 2 (1/2) 0).cfg).length,
        st.mixture = some (mixtureOf (Chi2mixture.init 1 2 1 2 2 (1/2) 0).cfg.tol
          [1, 2, 3, 4]) ∧
        st.scale = some (((gridCells (Chi2mixture.init 1 2 1 2 2 (1/2) 0).cfg).get
          ⟨k, hk⟩).1) ∧
        st.dof = some (((gridCells (Chi2mixture.init 1 2 1 2 2 (1/2) 0).cfg).get
          ⟨k, hk⟩).2) ∧
        ((gridCells (Chi2mixture.init 1 2 1 2 2 (1/2) 0).cfg).get ⟨k, hk⟩).1 ∈
          linspace (Chi2mixture.init 1 2 1 2 2 (1/2) 0).cfg.scale_min
            (Chi2mixture.init 1 2 1 2 2 (1/2) 0).cfg.scale_max
            (Chi2mixture.init 1 2 1 2 2 (1/2) 0).cfg.n_intervals ∧
        ((gridCells (Chi2mixture.init 1 2 1 2 2 (1/2) 0).cfg).get ⟨k, hk⟩).2 ∈
          linspace (Chi2mixture.init 1 2 1 2 2 (1/2) 0).cfg.dof_min
            (Chi2mixture.init 1 2 1 2 2 (1/2) 0).cfg.dof_max
            (Chi2mixture.init 1 2 1 2 2 (1/2) 0).cfg.n_intervals ∧
        (∀ j, ∀ hj : j < (gridCells (Chi2mixture.init 1 2 1 2 2 (1/2) 0).cfg).length,
          claimErrAt (fun _ _ => (1:ℚ)/2) id (Chi2mixture.init 1 2 1 2 2 (1/2) 0).cfg
              [1, 2, 3, 4]
              ((gridCells (Chi2mixture.init 1 2 1 2 2 (1/2) 0).cfg).get ⟨k, hk⟩) ≤
            claimErrAt (fun _ _ => (1:ℚ)/2) id (Chi2mixture.init 1 2 1 2 2 (1/2) 0).cfg
              [1, 2, 3, 4]
              ((gridCells (Chi2mixture.init 1 2 1 2 2 (1/2) 0).cfg).get ⟨j, hj⟩)) ∧
        (∀ j, ∀ hj : j < k,
          claimErrAt (fun _ _ => (1:ℚ)/2) id (Chi2mixture.init 1 2 1 2 2 (1/2) 0).cfg
              [1, 2, 3, 4]
              ((gridCells (Chi2mixture.init 1 2 1 2 2 (1/2) 0).cfg).get ⟨k, hk⟩) <
            claimErrAt (fun _ _ => (1:ℚ)/2) id (Chi2mixture.init 1 2 1 2 2 (1/2) 0).cfg
              [1, 2, 3, 4]
              ((gridCells (Chi2mixture.init 1 2 1 2 2 (1/2) 0).cfg).get
                ⟨j, lt_trans hj hk⟩))) := by
  have hnf : n_falseOf (0:ℚ) [1, 2, 3, 4] = 4 := by
    norm_num [n_falseOf, List.countP_cons]
  have hfit : n_fittingOf ((1:ℚ)/2) 4 = 2 := by
    norm_num [n_fittingOf]
    rfl
  have h1 : (0:ℚ) < (Chi2mixture.init 1 2 1 2 2 (1/2) 0).cfg.qmax := by
    norm_num [Chi2mixture.init]
  have h2 : 1 ≤ n_falseOf (Chi2mixture.init 1 2 1 2 2 (1/2) 0).cfg.tol
      [1, 2, 3, 4] := by
    show 1 ≤ n_falseOf (0:ℚ) [1, 2, 3, 4]
    rw [hnf]
    omega
  have h3 : n_fittingOf (Chi2mixture.init 1 2 1 2 2 (1/2) 0).cfg.qmax
      (n_falseOf (Chi2mixture.init 1 2 1 2 2 (1/2) 0).cfg.tol [1, 2, 3, 4]) + 1 ≤
      n_falseOf (Chi2mixture.init 1 2 1 2 2 (1/2) 0).cfg.tol [1, 2, 3, 4] := by
    show n_fittingOf ((1:ℚ)/2) (n_falseOf (0:ℚ) [1, 2, 3, 4]) + 1 ≤
      n_falseOf (0:ℚ) [1, 2, 3, 4]
    rw [hnf, hfit]
    omega
  have h4 : 1 ≤ (Chi2mixture.init 1 2 1 2 2 (1/2) 0).cfg.n_intervals := by
    show 1 ≤ 2
    omega
  have h5 : ∀ c ∈ gridCells (Chi2mixture.init 1 2 1 2 2 (1/2) 0).cfg,
      ∀ t ∈ lrt_sortedOf [1, 2, 3, 4]
        (n_fittingOf (Chi2mixture.init 1 2 1 2 2 (1/2) 0).cfg.qmax
          (n_falseOf (Chi2mixture.init 1 2 1 2 2 (1/2) 0).cfg.tol [1, 2, 3, 4])),
      0 < (fun _ _ => (1:ℚ)/2) (t / c.1) c.2 := by
    intro c hc t ht
    norm_num
  exact ⟨⟨h1, h2, h3, h4, h5⟩,
    C1_amended (fun _ _ => (1:ℚ)/2) id (Chi2mixture.init 1 2 1 2 2 (1/2) 0)
      [1, 2, 3, 4] h1 h2 h3 h4 h5⟩
